import Mathlib

/-!
Verification of the Dogecoin meta-protocol indexer ("dog") update pipeline.

This file gives a shallow embedding of the parts of the indexer that the
checked properties are about:

* the DRC-20 amount parser (src/subcommand/drc20.rs, parse_amount),
* the coin-range pack/unpack (src/index/entry.rs, impl Entry for SatRange),
* the coin-range assigner (src/index/updater.rs, index_transaction_sats),
* the DRC-20 ledger updater (src/index/updater.rs, index_drc20_transaction,
  drc20_deploy, drc20_mint, drc20_transfer_create),
* the DNS registrar (src/index/updater.rs, index_dns_transaction and
  src/subcommand/dns.rs, is_valid_dns_namespace).

Modelling conventions: Rust u128 and u64 values are Nat, with arithmetic
reduced modulo 2^128 or 2^64 exactly where the source performs an unchecked
(release-mode wrapping) machine operation; checked_mul and checked_add are
Option-valued; redb tables are association lists with unique keys; the
derivation of a Dogecoin address from an output script
(Chain::address_string_from_script) is abstracted by giving each transaction
output directly as an optional address string, which is the only way the
updater ever consumes a script.
-/

namespace Dog

/-- Modulus of the Rust u128 type. -/
def U128 : Nat := 2 ^ 128

/-- Modulus of the Rust u64 type. -/
def U64 : Nat := 2 ^ 64

/-- Wrapping u128 addition, the semantics of an unchecked u128 `a + b`. -/
def u128add (a b : Nat) : Nat := (a + b) % U128

/-- Wrapping u64 addition, the semantics of an unchecked u64 `a + b`. -/
def u64add (a b : Nat) : Nat := (a + b) % U64

/-- Checked u128 multiplication (u128::checked_mul). -/
def checked_mul (a b : Nat) : Option Nat :=
  if a * b < U128 then some (a * b) else none

/-- Checked u128 addition (u128::checked_add). -/
def checked_add (a b : Nat) : Option Nat :=
  if a + b < U128 then some (a + b) else none

/-- u128 10^d as computed by 10u128.pow(d) in release mode (wrapping). -/
def pow128 (d : Nat) : Nat := 10 ^ d % U128

/-- One ASCII decimal digit, the only digits accepted by Rust u128 parsing. -/
def isRustDigit (c : Char) : Bool := '0' ≤ c && c ≤ '9'

/-- The Unicode White_Space characters removed by Rust str::trim. -/
def isRustWhitespace (c : Char) : Bool :=
  c = ' ' || c = '\t' || c = '\n' || c = '\x0b' || c = '\x0c' || c = '\r' ||
  c = '\u0085' || c = '\u00A0' || c = '\u1680' ||
  ('\u2000' ≤ c && c ≤ '\u200A') ||
  c = '\u2028' || c = '\u2029' || c = '\u202F' || c = '\u205F' || c = '\u3000'

/-- Rust str::trim over a character list. -/
def rustTrim (cs : List Char) : List Char :=
  ((cs.dropWhile isRustWhitespace).reverse.dropWhile isRustWhitespace).reverse

/-- Numeric value of an ASCII digit character. -/
def digitVal (c : Char) : Nat := c.toNat - 48

/-- Value of a big-endian ASCII digit string. -/
def digitsToNat (cs : List Char) : Nat :=
  cs.foldl (fun a c => a * 10 + digitVal c) 0

/-- One optional leading plus sign is dropped by Rust integer parsing. -/
def stripPlus (l : List Char) : List Char :=
  match l with
  | c :: rest => if c = '+' then rest else c :: rest
  | [] => []

/-- Rust u128::from_str: an optional leading plus sign followed by one or
more ASCII digits; fails on anything else and on overflow past 2^128. -/
def parseU128 (cs : List Char) : Option Nat :=
  let ds := stripPlus cs
  if ds ≠ [] ∧ ds.all isRustDigit then
    if digitsToNat ds < U128 then some (digitsToNat ds) else none
  else none

/-- The body of parse_amount after the initial str::trim: rejects an empty
string, a leading plus, minus or dot, a trailing dot and any space
character, then parses an integer or fixed-decimal numeral, splitting at
the first dot, and scales the result by 10^decimals using checked u128
arithmetic. -/
def parse_amount_core (t : List Char) (decimals : Nat) : Option Nat :=
  if t = [] ∨ t.head? = some '+' ∨ t.head? = some '-' ∨ t.head? = some '.' ∨
      t.getLast? = some '.' ∨ ' ' ∈ t then
    none
  else
    let scale := pow128 decimals
    if '.' ∈ t then
      let intPart := t.takeWhile (fun c => c ≠ '.')
      let fracStr := (t.dropWhile (fun c => c ≠ '.')).tail
      (parseU128 intPart).bind fun ip =>
        if decimals < fracStr.length then none
        else
          (if fracStr = [] then some 0 else parseU128 fracStr).bind fun fp =>
            (checked_mul ip scale).bind fun x =>
              checked_add x (fp * pow128 (decimals - fracStr.length) % U128)
    else
      (parseU128 t).bind fun n => checked_mul n scale

/-- parse_amount from src/subcommand/drc20.rs: trim, then parse. -/
def parse_amount (s : List Char) (decimals : Nat) : Option Nat :=
  parse_amount_core (rustTrim s) decimals

/-- Entry::store for SatRange (src/index/entry.rs): pack a coin range as the
11 little-endian bytes of base | (delta << 51) as a u128, where delta is the
wrapping u64 difference end - start. -/
def satRangeStore (r : Nat × Nat) : List Nat :=
  let base := r.1
  let delta := (U64 + r.2 - r.1) % U64
  let n := base ||| (delta <<< 51)
  [n % 256, n >>> 8 % 256, n >>> 16 % 256, n >>> 24 % 256, n >>> 32 % 256,
    n >>> 40 % 256, n >>> 48 % 256, n >>> 56 % 256, n >>> 64 % 256,
    n >>> 72 % 256, n >>> 80 % 256]

/-- Entry::load for SatRange (src/index/entry.rs): the low 51 bits of the
first seven little-endian bytes give the base; bytes six through ten shifted
right by three give the delta. -/
def satRangeLoad (bytes : List Nat) : Nat × Nat :=
  let b := fun i => bytes.getD i 0
  let rawBase := b 0 + b 1 * 2 ^ 8 + b 2 * 2 ^ 16 + b 3 * 2 ^ 24 +
    b 4 * 2 ^ 32 + b 5 * 2 ^ 40 + b 6 * 2 ^ 48
  let base := rawBase % 2 ^ 51
  let rawDelta := b 6 + b 7 * 2 ^ 8 + b 8 * 2 ^ 16 + b 9 * 2 ^ 24 + b 10 * 2 ^ 32
  let delta := rawDelta >>> 3
  (base, base + delta)

/-- The inner while loop of Updater::index_transaction_sats
(src/index/updater.rs): fill one output of the given value from the front of
the tape of coin ranges.  A range is split when the output boundary falls
inside it and the split point becomes the new head of the tape.  Returns the
ranges assigned to the output and the remaining tape, or none where the
source panics with insufficient inputs. -/
def fillOutput : Nat → List (Nat × Nat) → Option (List (Nat × Nat) × List (Nat × Nat))
  | 0, tape => some ([], tape)
  | _ + 1, [] => none
  | r + 1, (s, e) :: rest =>
    let remaining := r + 1
    let count := e - s
    if remaining < count then
      some ([(s, s + remaining)], (s + remaining, e) :: rest)
    else
      match fillOutput (remaining - count) rest with
      | none => none
      | some (assigned, tape) => some ((s, e) :: assigned, tape)

/-- Updater::index_transaction_sats (src/index/updater.rs), on a tape that
already concatenates the coin ranges of all inputs in input order: walk the
outputs in order, consuming each output's value from the front of the tape;
return the ranges assigned to each output and the leftover tape. -/
def index_transaction_sats (outputs : List Nat) (tape : List (Nat × Nat)) :
    Option (List (List (Nat × Nat)) × List (Nat × Nat)) :=
  match outputs with
  | [] => some ([], tape)
  | v :: rest =>
    match fillOutput v tape with
    | none => none
    | some (assigned, tape) =>
      match index_transaction_sats rest tape with
      | none => none
      | some (outs, leftover) => some (assigned :: outs, leftover)

/-- The virtual tape of Updater::index_transaction_sats: the coin ranges of
all inputs concatenated in input order. -/
def concatInputRanges (inputs : List (List (Nat × Nat))) : List (Nat × Nat) :=
  inputs.flatten

/-- The individual coins of a coin range, in order. -/
def rangeUnits (r : Nat × Nat) : List Nat := List.range' r.1 (r.2 - r.1)

/-- The individual coins of a tape of coin ranges, in order. -/
def tapeUnits (tape : List (Nat × Nat)) : List Nat :=
  (tape.map rangeUnits).flatten

/-- Generic association-list view of a redb table: lookup. -/
def tableGet {K V : Type} [DecidableEq K] : List (K × V) → K → Option V
  | [], _ => none
  | (k2, v) :: rest, k => if k2 = k then some v else tableGet rest k

/-- Generic association-list view of a redb table: insert or overwrite. -/
def tableInsert {K V : Type} [DecidableEq K] : List (K × V) → K → V → List (K × V)
  | [], k, v => [(k, v)]
  | (k2, v2) :: rest, k, v =>
    if k2 = k then (k, v) :: rest else (k2, v2) :: tableInsert rest k v

/-- Generic association-list view of a redb table: remove a key. -/
def tableRemove {K V : Type} [DecidableEq K] : List (K × V) → K → List (K × V)
  | [], _ => []
  | (k2, v2) :: rest, k =>
    if k2 = k then rest else (k2, v2) :: tableRemove rest k

/-- Insert into a redb multimap: a (key, value) pair is stored at most once. -/
def multiInsert {K V : Type} [DecidableEq K] [DecidableEq V]
    (t : List (K × V)) (k : K) (v : V) : List (K × V) :=
  if (k, v) ∈ t then t else t ++ [(k, v)]

/-- A transaction outpoint: (transaction id, output index). -/
structure OutPoint where
  txid : Nat
  vout : Nat
deriving DecidableEq

/-- Drc20Token from src/subcommand/drc20.rs. -/
structure Drc20Token where
  tick : String
  max_supply : Nat
  mint_limit : Nat
  decimals : Nat
  minted : Nat
  deploy_inscription : String
  deploy_height : Nat
  deploy_timestamp : Nat
  deployer : String
  mint_count : Nat
deriving DecidableEq

/-- Drc20Transfer from src/subcommand/drc20.rs: a pending transfer. -/
structure Drc20Transfer where
  tick : String
  amount : Nat
  from_address : String
deriving DecidableEq

/-- The DRC-20 tables of the persistent store: DRC20_TICK_TO_TOKEN,
DRC20_BALANCE, DRC20_TRANSFERABLE, DRC20_OUTPOINT_TO_TRANSFER, and the
Drc20Tokens statistic counter. -/
structure Drc20State where
  tokens : List (String × Drc20Token)
  balances : List (String × Nat)
  transferable : List (String × Nat)
  transfers : List (OutPoint × Drc20Transfer)
  drc20TokensStat : Nat
deriving DecidableEq

/-- The balance-table key "{address}\t{tick}". -/
def balKey (address tick : String) : String := address ++ "\t" ++ tick

/-- Rust str::len: the UTF-8 byte length of a string. -/
def utf8Len (s : String) : Nat := s.data.foldl (fun n c => n + c.utf8Size) 0

/-- Rust str::to_lowercase, on the ASCII range the DRC-20 ticks use. -/
def rustToLowercase (s : String) : String := String.mk (s.data.map Char.toLower)

/-- A JSON value in an amount position: a JSON string or an unsigned JSON
number.  The best-effort float branch of json_to_amount_str is outside the
shallow embedding and is not modelled. -/
inductive JsonAmount where
  | str (s : String)
  | num (n : Nat)
deriving DecidableEq

/-- json_to_amount_str from src/subcommand/drc20.rs, on the modelled JSON
values. -/
def json_to_amount_str : JsonAmount → String
  | .str s => s
  | .num n => toString n

/-- The fields of a DRC-20 JSON body that the three operations read, after
JSON parsing: tick as a string, max, lim and amt as amount values, dec as the
result of as_u64 (none when absent or not an unsigned integer). -/
structure Drc20Json where
  tick : Option String
  max : Option JsonAmount
  lim : Option JsonAmount
  dec : Option Nat
  amt : Option JsonAmount
deriving DecidableEq

/-- A parsed envelope already known to carry a DRC-20 JSON body (content
type text/plain or application/json, valid UTF-8 and JSON, p = "drc-20" and
an op string present): the envelope offset designating its associated
output, the op, and the JSON fields. -/
structure Drc20Envelope where
  offset : Nat
  op : String
  json : Drc20Json
deriving DecidableEq

/-- Updater::drc20_deploy (src/index/updater.rs): first deploy per lowercase
tick wins; dec defaults to 8 capped at 18; max is required and lim defaults
to the max string; both must parse and be nonzero. -/
def drc20_deploy (st : Drc20State) (json : Drc20Json) (inscription : String)
    (deployer : String) (height : Nat) (block_time : Nat) : Drc20State :=
  match json.tick with
  | none => st
  | some tick_raw =>
    if utf8Len tick_raw ≠ 4 then st
    else
      let tick_lower := rustToLowercase tick_raw
      if (tableGet st.tokens tick_lower).isSome then st
      else
        let dec := min (json.dec.getD 8) 18
        match json.max.map json_to_amount_str with
        | none => st
        | some max_str =>
          match parse_amount max_str.data dec with
          | none => st
          | some max_supply =>
            if max_supply = 0 then st
            else
              let lim_str := (json.lim.map json_to_amount_str).getD max_str
              match parse_amount lim_str.data dec with
              | none => st
              | some mint_limit =>
                if mint_limit = 0 then st
                else
                  { st with
                    tokens := tableInsert st.tokens tick_lower
                      ⟨tick_raw, max_supply, mint_limit, dec, 0, inscription,
                        height, block_time, deployer, 0⟩,
                    drc20TokensStat := u64add st.drc20TokensStat 1 }

/-- Updater::drc20_mint (src/index/updater.rs): reject when the tick is
undeployed, fully minted, the amount is zero or exceeds the mint limit;
otherwise cap the amount at the remaining supply, credit the recipient's
available balance and update minted and mint_count. -/
def drc20_mint (st : Drc20State) (json : Drc20Json) (recipient : String) :
    Drc20State :=
  match json.tick with
  | none => st
  | some tick_raw =>
    if utf8Len tick_raw ≠ 4 then st
    else
      let tick_lower := rustToLowercase tick_raw
      match tableGet st.tokens tick_lower with
      | none => st
      | some token =>
        if token.max_supply ≤ token.minted then st
        else
          match json.amt.map json_to_amount_str with
          | none => st
          | some amt_str =>
            match parse_amount amt_str.data token.decimals with
            | none => st
            | some amt0 =>
              if amt0 = 0 then st
              else if token.mint_limit < amt0 then st
              else
                let remaining := token.max_supply - token.minted
                let amt := if remaining < amt0 then remaining else amt0
                let key := balKey recipient tick_lower
                let prev := (tableGet st.balances key).getD 0
                { st with
                  balances := tableInsert st.balances key (u128add prev amt),
                  tokens := tableInsert st.tokens tick_lower
                    { token with
                      minted := u128add token.minted amt,
                      mint_count := u64add token.mint_count 1 } }

/-- Updater::drc20_transfer_create (src/index/updater.rs): reject when the
tick is undeployed, the amount is zero, or the sender's available balance is
insufficient; otherwise move the amount from available to transferable and
record a pending transfer at the outpoint. -/
def drc20_transfer_create (st : Drc20State) (json : Drc20Json)
    (sender : String) (outpoint : OutPoint) : Drc20State :=
  match json.tick with
  | none => st
  | some tick_raw =>
    if utf8Len tick_raw ≠ 4 then st
    else
      let tick_lower := rustToLowercase tick_raw
      match tableGet st.tokens tick_lower with
      | none => st
      | some token =>
        match json.amt.map json_to_amount_str with
        | none => st
        | some amt_str =>
          match parse_amount amt_str.data token.decimals with
          | none => st
          | some amt =>
            if amt = 0 then st
            else
              let key := balKey sender tick_lower
              let avail := (tableGet st.balances key).getD 0
              if avail < amt then st
              else
                { st with
                  balances := tableInsert st.balances key (avail - amt),
                  transferable := tableInsert st.transferable key
                    (u128add ((tableGet st.transferable key).getD 0) amt),
                  transfers := tableInsert st.transfers outpoint
                    ⟨tick_lower, amt, sender⟩ }

/-- Step 1 of Updater::index_drc20_transaction for one spent input: when a
pending transfer sits at the spent outpoint, credit the address of the
transaction's first output with the amount and debit the sender's
transferable balance (saturating); when the first output is missing or its
script yields no decodable address, neither balance changes; in every case
the pending-transfer entry is removed.  Each output is given as its optional
decodable address. -/
def drc20_complete_transfer (st : Drc20State) (prev : OutPoint)
    (outputs : List (Option String)) : Drc20State :=
  match tableGet st.transfers prev with
  | none => st
  | some transfer =>
    let st2 :=
      match outputs.head? with
      | none => st
      | some none => st
      | some (some recv_addr) =>
        let recv_key := balKey recv_addr transfer.tick
        let prev_bal := (tableGet st.balances recv_key).getD 0
        let send_key := balKey transfer.from_address transfer.tick
        let prev_trf := (tableGet st.transferable send_key).getD 0
        { st with
          balances := tableInsert st.balances recv_key
            (u128add prev_bal transfer.amount),
          transferable := tableInsert st.transferable send_key
            (prev_trf - transfer.amount) }
    { st2 with transfers := tableRemove st2.transfers prev }

/-- Step 2 of Updater::index_drc20_transaction for one DRC-20 envelope: the
associated output is tx.output[envelope.offset]; when it is missing or its
script yields no decodable address the envelope is skipped entirely,
otherwise the op is dispatched. -/
def drc20_process_envelope (st : Drc20State) (txid : Nat) (env_idx : Nat)
    (env : Drc20Envelope) (outputs : List (Option String))
    (height : Nat) (block_time : Nat) : Drc20State :=
  match outputs.get? env.offset with
  | none => st
  | some none => st
  | some (some addr) =>
    let inscription_id := toString txid ++ "i" ++ toString env_idx
    if env.op = "deploy" then
      drc20_deploy st env.json inscription_id addr height block_time
    else if env.op = "mint" then
      drc20_mint st env.json addr
    else if env.op = "transfer" then
      drc20_transfer_create st env.json addr ⟨txid, env.offset⟩
    else st

/-- Updater::index_drc20_transaction (src/index/updater.rs): complete the
pending transfers spent by the transaction's inputs, then apply the DRC-20
envelopes carried by the transaction in envelope order. -/
def index_drc20_transaction (st : Drc20State) (txid : Nat)
    (inputs : List OutPoint) (outputs : List (Option String))
    (envelopes : List Drc20Envelope) (height : Nat) (block_time : Nat) :
    Drc20State :=
  let st1 := inputs.foldl (fun s prev => drc20_complete_transfer s prev outputs) st
  (envelopes.enum).foldl
    (fun s p => drc20_process_envelope s txid p.1 p.2 outputs height block_time)
    st1

/-- is_valid_dns_namespace from src/subcommand/dns.rs: exact match against
the fixed namespace allow-list. -/
def is_valid_dns_namespace (ns : String) : Bool :=
  ns = "doge" || ns = "dogecoin" || ns = "shibe" || ns = "shib" ||
  ns = "wow" || ns = "very" || ns = "such" || ns = "much" ||
  ns = "excite" || ns = "woof" || ns = "bark" || ns = "tail" ||
  ns = "paws" || ns = "paw" || ns = "moon" || ns = "kabosu" ||
  ns = "cheems" || ns = "inu" || ns = "cook" || ns = "doggo" ||
  ns = "boop" || ns = "zoomies" || ns = "smol" || ns = "snoot" ||
  ns = "pupper" || ns = "official"

/-- Rust str::split at the dot character: n dots yield n + 1 parts. -/
def splitDot : List Char → List (List Char)
  | [] => [[]]
  | c :: rest =>
    if c = '.' then [] :: splitDot rest
    else
      match splitDot rest with
      | [] => [[c]]
      | p :: ps => (c :: p) :: ps

/-- The body acceptance check of Updater::index_dns_transaction: the trimmed
body splits at dots into exactly a label and a namespace, both non-empty,
and the namespace is in the allow-list. -/
def dnsAccepts (name : List Char) : Bool :=
  match splitDot name with
  | [label, ns] =>
    !label.isEmpty && !ns.isEmpty && is_valid_dns_namespace (String.mk ns)
  | _ => false

/-- DnsEntry from src/index/entry.rs, with the owner inscription id kept as
its (txid, envelope index) pair. -/
structure DnsEntry where
  name : List Char
  owner_txid : Nat
  owner_index : Nat
  owner_inscription_number : Int
  height : Nat
  timestamp : Nat
  fee : Nat
  address : Option String
  avatar : Option String
  reverse : Option String
deriving DecidableEq

/-- The DNS tables of the persistent store: DNS_NAME_TO_ENTRY,
DNS_INSCRIPTION_ID_TO_NAME, DNS_NAMESPACE_TO_NAMES and the DnsNames
statistic counter. -/
structure DnsState where
  names : List (List Char × DnsEntry)
  idToName : List ((Nat × Nat) × List Char)
  namespaceToNames : List (List Char × List Char)
  dnsStat : Nat
deriving DecidableEq

/-- The loop body of Updater::index_dns_transaction for one envelope.  The
body is the envelope's payload as text (none when the payload is missing or
not valid UTF-8); inscNum abstracts the inscription-number lookup through
the INSCRIPTION_ID_TO_SEQUENCE_NUMBER and
INSCRIPTION_NUMBER_TO_SEQUENCE_NUMBER tables, defaulting to 0.  First
inscription wins: a name already present registers nothing. -/
def dns_process_envelope (st : DnsState) (txid : Nat) (env_idx : Nat)
    (height : Nat) (block_time : Nat) (inscNum : Nat → Nat → Int)
    (body : Option (List Char)) : DnsState :=
  match body with
  | none => st
  | some text =>
    let name := rustTrim text
    match splitDot name with
    | [label, ns] =>
      if label.isEmpty || ns.isEmpty then st
      else if !is_valid_dns_namespace (String.mk ns) then st
      else if (tableGet st.names name).isSome then st
      else
        { st with
          names := tableInsert st.names name
            ⟨name, txid, env_idx, inscNum txid env_idx, height, block_time,
              0, none, none, none⟩,
          idToName := tableInsert st.idToName (txid, env_idx) name,
          namespaceToNames := multiInsert st.namespaceToNames ns name,
          dnsStat := u64add st.dnsStat 1 }
    | _ => st

/-- Updater::index_dns_transaction (src/index/updater.rs): apply the DNS
registration rule to every envelope of the transaction in order. -/
def index_dns_transaction (st : DnsState) (txid : Nat) (height : Nat)
    (block_time : Nat) (inscNum : Nat → Nat → Int)
    (bodies : List (Option (List Char))) : DnsState :=
  (bodies.enum).foldl
    (fun s p => dns_process_envelope s txid p.1 height block_time inscNum p.2)
    st

/-- The empty DRC-20 state: no tokens, balances, transferable amounts or
pending transfers. -/
def emptyDrc20State : Drc20State := ⟨[], [], [], [], 0⟩

/-- Scenario A deploy envelope: tick DOGI, max 100, lim 50, dec 0. -/
def scenarioADeploy : Drc20Envelope :=
  ⟨0, "deploy", ⟨some "DOGI", some (.str "100"), some (.str "50"), some 0, none⟩⟩

/-- Scenario A mint envelope of the given amount for tick DOGI. -/
def scenarioAMint (amt : String) : Drc20Envelope :=
  ⟨0, "mint", ⟨some "DOGI", none, none, none, some (.str amt)⟩⟩

/-- Scenario A run: deploy to A in block 10, mint 50 to B in block 11, mint
80 to C in block 12, each in its own transaction against an initially empty
DRC-20 state. -/
def scenarioAState : Drc20State :=
  index_drc20_transaction
    (index_drc20_transaction
      (index_drc20_transaction emptyDrc20State 1 [] [some "A"] [scenarioADeploy]
        10 100)
      2 [] [some "B"] [scenarioAMint "50"] 11 110)
    3 [] [some "C"] [scenarioAMint "80"] 12 120

/-- DOGI token installed by the duplicate-deploy witness. -/
def dupDeployToken : Drc20Token := ⟨"DOGI", 100, 50, 0, 10, "1i0", 10, 100, "A", 1⟩

/-- State holding one deployed DOGI token. -/
def dupDeployState : Drc20State := ⟨[("dogi", dupDeployToken)], [], [], [], 1⟩

/-- A second deploy of DOGI with different parameters. -/
def dupDeployJson : Drc20Json := ⟨some "DOGI", some (.str "200"), none, some 0, none⟩

/-- State with a pending transfer of 30 dogi from A at outpoint (7, 0) and
A's transferable balance standing at 30. -/
def burnState : Drc20State :=
  ⟨[], [], [(balKey "A" "dogi", 30)], [(⟨7, 0⟩, ⟨"dogi", 30, "A"⟩)], 0⟩

/-- DOGI token of the transfer witness. -/
def transferWitToken : Drc20Token :=
  ⟨"DOGI", 1000, 1000, 0, 100, "1i0", 10, 100, "D", 1⟩

/-- State with 100 dogi available to A. -/
def transferWitState : Drc20State :=
  ⟨[("dogi", transferWitToken)], [(balKey "A" "dogi", 100)], [], [], 1⟩

/-- Transfer inscription body of amount 30. -/
def transferWitJson : Drc20Json := ⟨some "DOGI", none, none, none, some (.str "30")⟩

/-- DOGI token of the mint witness: 60 of 100 already minted. -/
def mintWitToken : Drc20Token := ⟨"DOGI", 100, 50, 0, 60, "1i0", 10, 100, "A", 3⟩

/-- State holding the partially minted DOGI token. -/
def mintWitState : Drc20State := ⟨[("dogi", mintWitToken)], [], [], [], 1⟩

/-- Mint inscription body of amount 50. -/
def mintWitJson : Drc20Json := ⟨some "DOGI", none, none, none, some (.str "50")⟩

/-- The spec's registration condition, stated structurally: the name is
label.namespace with exactly one dot, both parts non-empty, and the
namespace in the allow-list. -/
def DnsNameWellFormed (n : List Char) : Prop :=
  ∃ label ns, n = label ++ '.' :: ns ∧ label ≠ [] ∧ ns ≠ [] ∧
    '.' ∉ label ∧ '.' ∉ ns ∧ is_valid_dns_namespace (String.mk ns) = true

/-- The empty DNS state. -/
def emptyDnsState : DnsState := ⟨[], [], [], 0⟩

/-- The alice.doge entry registered at height 100 by inscription (5, 0). -/
def dnsWitEntry : DnsEntry :=
  ⟨"alice.doge".data, 5, 0, 0, 100, 500, 0, none, none, none⟩

/-- A DNS state in which alice.doge is already registered. -/
def dnsWitState : DnsState := ⟨[("alice.doge".data, dnsWitEntry)], [], [], 1⟩

/-- The amended specification form of the DRC-20 amount grammar: the
(already trimmed) string is either a digit string, or a digit string, a dot
and a fractional part of length at most d consisting of one or more digits
optionally preceded by a plus sign; the value is the numeral scaled by 10^d
— the fractional part length, plus sign included, counting against d — and
must fit in a u128. -/
def AmountSpecForm (t : List Char) (d : Nat) (v : Nat) : Prop :=
  ((∀ c ∈ t, isRustDigit c = true) ∧ t ≠ [] ∧
    v = digitsToNat t * 10 ^ d ∧ v < U128)
  ∨ (∃ ip fp, t = ip ++ '.' :: fp ∧ ip ≠ [] ∧
      (∀ c ∈ ip, isRustDigit c = true) ∧
      stripPlus fp ≠ [] ∧ (∀ c ∈ stripPlus fp, isRustDigit c = true) ∧
      fp.length ≤ d ∧
      v = digitsToNat ip * 10 ^ d +
        digitsToNat (stripPlus fp) * 10 ^ (d - fp.length) ∧
      v < U128)

/-!  Helper lemmas. -/

/-- Bitwise or of two values with disjoint bit ranges is addition. -/
theorem lor_shift_disjoint (a b k : Nat) (h : a < 2 ^ k) :
    a ||| (b <<< k) = a + b * 2 ^ k := by
  rw [Nat.shiftLeft_eq, Nat.lor_comm, Nat.mul_comm]
  rw [← Nat.mul_add_lt_is_or h b]
  omega

/-- Dividing twice composes, in the byte-extraction form used below. -/
theorem div_pow_div_256 (a k : Nat) : a / 2 ^ k / 256 = a / 2 ^ (k + 8) := by
  rw [Nat.div_div_eq_div_mul,
    show (2 : Nat) ^ k * 256 = 2 ^ (k + 8) by rw [pow_add]; norm_num]

/-- Filling one output preserves the tape's coins in order and assigns it
exactly its value in coins. -/
theorem fillOutput_spec (tape : List (Nat × Nat)) :
    ∀ (r : Nat) (assigned rest : List (Nat × Nat)),
      fillOutput r tape = some (assigned, rest) →
      tapeUnits assigned ++ tapeUnits rest = tapeUnits tape ∧
        (tapeUnits assigned).length = r := by
  induction tape with
  | nil =>
    intro r assigned rest h
    cases r with
    | zero =>
      simp only [fillOutput, Option.some.injEq, Prod.mk.injEq] at h
      obtain ⟨rfl, rfl⟩ := h
      simp [tapeUnits]
    | succ r => simp [fillOutput] at h
  | cons hd tl ih =>
    intro r assigned rest h
    obtain ⟨s, e⟩ := hd
    cases r with
    | zero =>
      simp only [fillOutput, Option.some.injEq, Prod.mk.injEq] at h
      obtain ⟨rfl, rfl⟩ := h
      simp [tapeUnits]
    | succ r =>
      simp only [fillOutput] at h
      by_cases hc : r + 1 < e - s
      · rw [if_pos hc] at h
        simp only [Option.some.injEq, Prod.mk.injEq] at h
        obtain ⟨rfl, rfl⟩ := h
        constructor
        · simp only [tapeUnits, List.map_cons, List.flatten_cons, List.map_nil,
            List.flatten_nil, List.append_nil, rangeUnits, ← List.append_assoc]
          congr 1
          have : s + (r + 1) - s = r + 1 := by omega
          rw [this]
          have happ := List.range'_append s (r + 1) (e - (s + (r + 1))) 1
          simp only [one_mul, mul_one] at happ
          rw [happ]
          congr 1
          omega
        · simp [tapeUnits, rangeUnits]
      · rw [if_neg hc] at h
        cases hrec : fillOutput (r + 1 - (e - s)) tl with
        | none => rw [hrec] at h; simp at h
        | some p =>
          obtain ⟨as2, rest2⟩ := p
          rw [hrec] at h
          simp only [Option.some.injEq, Prod.mk.injEq] at h
          obtain ⟨rfl, rfl⟩ := h
          obtain ⟨hu, hl⟩ := ih (r + 1 - (e - s)) as2 rest2 hrec
          constructor
          · simp only [tapeUnits, List.map_cons, List.flatten_cons,
              List.append_assoc] at hu ⊢
            rw [hu]
          · simp only [tapeUnits, List.map_cons, List.flatten_cons,
              List.length_append] at hl ⊢
            simp only [rangeUnits, List.length_range']
            omega

/-- The assigner preserves the tape's coins in order across all outputs and
gives each output exactly its value in coins. -/
theorem index_transaction_sats_spec (outputs : List Nat) :
    ∀ (tape : List (Nat × Nat)) (outs : List (List (Nat × Nat)))
      (leftover : List (Nat × Nat)),
      index_transaction_sats outputs tape = some (outs, leftover) →
      List.Forall₂ (fun v a => (tapeUnits a).length = v) outputs outs ∧
        (outs.map tapeUnits).flatten ++ tapeUnits leftover = tapeUnits tape := by
  induction outputs with
  | nil =>
    intro tape outs leftover h
    simp only [index_transaction_sats, Option.some.injEq, Prod.mk.injEq] at h
    obtain ⟨rfl, rfl⟩ := h
    simp
  | cons v rest ih =>
    intro tape outs leftover h
    cases h1 : fillOutput v tape with
    | none => simp only [index_transaction_sats, h1] at h; exact absurd h (by simp)
    | some p =>
      obtain ⟨assigned, tape2⟩ := p
      cases h2 : index_transaction_sats rest tape2 with
      | none => simp only [index_transaction_sats, h1, h2] at h; exact absurd h (by simp)
      | some q =>
        obtain ⟨outs2, leftover2⟩ := q
        simp only [index_transaction_sats, h1, h2, Option.some.injEq,
          Prod.mk.injEq] at h
        obtain ⟨rfl, rfl⟩ := h
        obtain ⟨hu1, hl1⟩ := fillOutput_spec tape v assigned tape2 h1
        obtain ⟨hf, hu2⟩ := ih tape2 outs2 leftover2 h2
        refine ⟨List.Forall₂.cons hl1 hf, ?_⟩
        simp only [List.map_cons, List.flatten_cons, List.append_assoc]
        rw [hu2, hu1]

/-!  Claim theorems. -/

/-- C9.  For every coin range (start, end) with start < 2^51 and
end - start < 2^33, unpacking the 11-byte packed form yields the original
pair: load (store (start, end)) = (start, end). -/
theorem satrange_pack_unpack_identity (s e : Nat) (h1 : s < 2 ^ 51)
    (h2 : s ≤ e) (h3 : e - s < 2 ^ 33) :
    satRangeLoad (satRangeStore (s, e)) = (s, e) := by
  have hd : (U64 + e - s) % U64 = e - s := by
    unfold U64; omega
  simp only [satRangeStore, satRangeLoad]
  rw [hd, lor_shift_disjoint s (e - s) 51 h1]
  simp only [Nat.shiftRight_eq_div_pow, List.getD_cons_zero, List.getD_cons_succ,
    Prod.mk.injEq]
  have b1 := div_pow_div_256 (s + (e - s) * 2 ^ 51) 8
  have b2 := div_pow_div_256 (s + (e - s) * 2 ^ 51) 16
  have b3 := div_pow_div_256 (s + (e - s) * 2 ^ 51) 24
  have b4 := div_pow_div_256 (s + (e - s) * 2 ^ 51) 32
  have b5 := div_pow_div_256 (s + (e - s) * 2 ^ 51) 40
  have b6 := div_pow_div_256 (s + (e - s) * 2 ^ 51) 48
  have b7 := div_pow_div_256 (s + (e - s) * 2 ^ 51) 56
  have b8 := div_pow_div_256 (s + (e - s) * 2 ^ 51) 64
  have b9 := div_pow_div_256 (s + (e - s) * 2 ^ 51) 72
  norm_num at b1 b2 b3 b4 b5 b6 b7 b8 b9 ⊢
  constructor <;> omega

/-- Witness for C9 at the concrete range (100, 200). -/
theorem satrange_pack_unpack_identity_witness :
    100 < 2 ^ 51 ∧ 100 ≤ 200 ∧ 200 - 100 < 2 ^ 33 ∧
      satRangeLoad (satRangeStore (100, 200)) = (100, 200) :=
  ⟨by norm_num, by norm_num, by norm_num,
    satrange_pack_unpack_identity 100 200 (by norm_num) (by norm_num)
      (by norm_num)⟩

/-- C8.  The coin-range assigner concatenates the coin ranges of all inputs
in input order into one tape; each output in order consumes exactly
output.value coins from the front of that tape (ranges being split at output
boundaries), and the leftover tape holds exactly the remaining coins, in
order: the per-output coin lists followed by the leftover reassemble the
input tape. -/
theorem coin_range_assigner_fifo (inputs : List (List (Nat × Nat)))
    (outputs : List Nat) (outs : List (List (Nat × Nat)))
    (leftover : List (Nat × Nat))
    (h : index_transaction_sats outputs (concatInputRanges inputs) =
      some (outs, leftover)) :
    List.Forall₂ (fun v a => (tapeUnits a).length = v) outputs outs ∧
      (outs.map tapeUnits).flatten ++ tapeUnits leftover =
        tapeUnits (concatInputRanges inputs) :=
  index_transaction_sats_spec outputs (concatInputRanges inputs) outs leftover h

/-- Counterexample to C2: after the Scenario A run the stored DOGI token
does not have minted = 100 and mint_count = 2, and C's available balance is
not 50 — the second mint is rejected because its amount 80 exceeds the
mint limit 50, before any capping at the remaining supply. -/
theorem scenario_a_counterexample :
    (tableGet scenarioAState.tokens "dogi").map
        (fun tok => (tok.minted, tok.mint_count)) ≠ some (100, 2) ∧
      tableGet scenarioAState.balances (balKey "C" "dogi") ≠ some 50 := by
  decide

/-- C2 (amended).  After processing, against an empty DRC-20 state, a deploy
of tick DOGI with max = 100, lim = 50, dec = 0 to address A, then a mint of
amt = 50 to address B, then a mint of amt = 80 to address C, the stored
token has minted = 50 and mint_count = 1, B's available balance for dogi is
50, and C has no available balance for dogi: the second mint is rejected
because its amount exceeds the mint limit. -/
theorem scenario_a_amended :
    (tableGet scenarioAState.tokens "dogi").map
        (fun tok => (tok.minted, tok.mint_count)) = some (50, 1) ∧
      tableGet scenarioAState.balances (balKey "B" "dogi") = some 50 ∧
      tableGet scenarioAState.balances (balKey "C" "dogi") = none := by
  decide

/-- C10.  A DRC-20 envelope whose associated output tx.output[offset] does
not exist, or exists but yields no decodable address, is skipped entirely:
no table changes at all. -/
theorem drc20_envelope_guard_noop (st : Drc20State) (txid env_idx : Nat)
    (env : Drc20Envelope) (outputs : List (Option String))
    (height block_time : Nat)
    (h : outputs[env.offset]? = none ∨ outputs[env.offset]? = some none) :
    drc20_process_envelope st txid env_idx env outputs height block_time = st := by
  rcases h with h | h <;> simp [drc20_process_envelope, h]

/-- Witness for C10: a mint envelope at offset 5 of a single-output
transaction changes nothing. -/
theorem drc20_envelope_guard_noop_witness :
    ([some "A"] : List (Option String))[(5 : Nat)]? = none ∧
      drc20_process_envelope emptyDrc20State 1 0
          ⟨5, "mint", ⟨some "DOGI", none, none, none, some (.str "5")⟩⟩
          [some "A"] 10 100 =
        emptyDrc20State :=
  ⟨by decide,
    drc20_envelope_guard_noop emptyDrc20State 1 0
      ⟨5, "mint", ⟨some "DOGI", none, none, none, some (.str "5")⟩⟩
      [some "A"] 10 100 (Or.inl (by decide))⟩

/-- C5.  A deploy whose tick lowercases to a key already in the token table
changes nothing: the token table, every other table and the statistics are
all left exactly as they were. -/
theorem drc20_duplicate_deploy_noop (st : Drc20State) (json : Drc20Json)
    (inscription deployer : String) (height block_time : Nat) (t : String)
    (tok : Drc20Token)
    (ht : json.tick = some t)
    (hdup : tableGet st.tokens (rustToLowercase t) = some tok) :
    drc20_deploy st json inscription deployer height block_time = st := by
  simp only [drc20_deploy, ht]
  by_cases h4 : utf8Len t = 4
  · simp [h4, hdup]
  · simp [h4]

/-- Witness for C5: a second deploy of DOGI leaves the state untouched. -/
theorem drc20_duplicate_deploy_noop_witness :
    tableGet dupDeployState.tokens (rustToLowercase "DOGI") = some dupDeployToken ∧
      drc20_deploy dupDeployState dupDeployJson "2i0" "B" 11 110 = dupDeployState :=
  ⟨by decide,
    drc20_duplicate_deploy_noop dupDeployState dupDeployJson "2i0" "B" 11 110
      "DOGI" dupDeployToken rfl (by decide)⟩

/-- Counterexample to C1: spending the pending-transfer outpoint with a
first output that has no decodable address leaves A's transferable balance
at 30 — it is not reduced to 0 as the claim requires — while the
pending-transfer entry is removed. -/
theorem drc20_burn_transferable_counterexample :
    tableGet (index_drc20_transaction burnState 8 [⟨7, 0⟩] [none] [] 21
        210).transferable (balKey "A" "dogi") = some 30 ∧
      tableGet (index_drc20_transaction burnState 8 [⟨7, 0⟩] [none] [] 21
          210).transferable (balKey "A" "dogi") ≠ some 0 ∧
      tableGet (index_drc20_transaction burnState 8 [⟨7, 0⟩] [none] [] 21
          210).transfers ⟨7, 0⟩ = none := by
  decide

/-- C1 (amended).  When a transaction spends an outpoint carrying a pending
transfer and its first output yields no decodable address, the amount is
burned: the sender's available and transferable balances are both left
unchanged, no address is credited, and only the pending-transfer entry is
removed. -/
theorem drc20_burn_on_undecodable_output (st : Drc20State) (txid : Nat)
    (O : OutPoint) (outputs : List (Option String)) (t : Drc20Transfer)
    (height block_time : Nat)
    (hT : tableGet st.transfers O = some t)
    (hout : outputs.head? = some none) :
    index_drc20_transaction st txid [O] outputs [] height block_time =
      { st with transfers := tableRemove st.transfers O } := by
  simp [index_drc20_transaction, drc20_complete_transfer, hT, hout, List.enum]

/-- Witness for C1 at the Scenario F state: spending (7, 0) toward an
OP_RETURN-style output removes the entry and touches no balance. -/
theorem drc20_burn_on_undecodable_output_witness :
    tableGet burnState.transfers ⟨7, 0⟩ = some ⟨"dogi", 30, "A"⟩ ∧
      ([none] : List (Option String)).head? = some none ∧
      index_drc20_transaction burnState 8 [⟨7, 0⟩] [none] [] 21 210 =
        { burnState with transfers := tableRemove burnState.transfers ⟨7, 0⟩ } :=
  ⟨by decide, by decide,
    drc20_burn_on_undecodable_output burnState 8 ⟨7, 0⟩ [none] ⟨"dogi", 30, "A"⟩
      21 210 (by decide) (by decide)⟩

/-- C4.  A transfer inscription with a deployed tick and parsed amount amt
is rejected with no state change when amt = 0 or the sender's available
balance is below amt (and an undeployed tick always changes nothing);
otherwise it moves exactly amt from the sender's available balance to the
sender's transferable balance and records the pending transfer
(lowercased tick, amt, sender) at the inscription's outpoint. -/
theorem drc20_transfer_create_correct (st : Drc20State) (json : Drc20Json)
    (sender : String) (O : OutPoint) (t : String)
    (ht : json.tick = some t) :
    (tableGet st.tokens (rustToLowercase t) = none →
      drc20_transfer_create st json sender O = st) ∧
    (∀ tok, tableGet st.tokens (rustToLowercase t) = some tok →
      utf8Len t = 4 →
      ∀ a, json.amt = some a →
      ∀ amt, parse_amount (json_to_amount_str a).data tok.decimals = some amt →
        (amt = 0 → drc20_transfer_create st json sender O = st) ∧
        ((tableGet st.balances (balKey sender (rustToLowercase t))).getD 0 < amt →
          drc20_transfer_create st json sender O = st) ∧
        (amt ≠ 0 →
          amt ≤ (tableGet st.balances (balKey sender (rustToLowercase t))).getD 0 →
          (tableGet st.transferable (balKey sender (rustToLowercase t))).getD 0 +
              amt < U128 →
          drc20_transfer_create st json sender O =
            { st with
              balances := tableInsert st.balances
                (balKey sender (rustToLowercase t))
                ((tableGet st.balances (balKey sender (rustToLowercase t))).getD 0 -
                  amt),
              transferable := tableInsert st.transferable
                (balKey sender (rustToLowercase t))
                ((tableGet st.transferable
                    (balKey sender (rustToLowercase t))).getD 0 + amt),
              transfers := tableInsert st.transfers O
                ⟨rustToLowercase t, amt, sender⟩ })) := by
  constructor
  · intro hnone
    simp only [drc20_transfer_create, ht]
    by_cases h4 : utf8Len t = 4
    · simp [h4, hnone]
    · simp [h4]
  · intro tok htok h4 a ha amt hamt
    refine ⟨?_, ?_, ?_⟩
    · intro h0
      simp [drc20_transfer_create, ht, h4, htok, ha, hamt, h0]
    · intro hlt
      simp [drc20_transfer_create, ht, h4, htok, ha, hamt] at hlt ⊢
      intro h0
      simp [hlt]
    · intro h0 hle hnoflow
      simp [drc20_transfer_create, ht, h4, htok, ha, hamt, h0,
        Nat.not_lt.mpr hle, u128add, Nat.mod_eq_of_lt hnoflow]

/-- Witness for C4: A inscribes a transfer of 30 dogi on outpoint (7, 0),
moving 30 from available to transferable and recording the pending
transfer. -/
theorem drc20_transfer_create_correct_witness :
    drc20_transfer_create transferWitState transferWitJson "A" ⟨7, 0⟩ =
      { transferWitState with
        balances := tableInsert transferWitState.balances
          (balKey "A" (rustToLowercase "DOGI"))
          ((tableGet transferWitState.balances
              (balKey "A" (rustToLowercase "DOGI"))).getD 0 - 30),
        transferable := tableInsert transferWitState.transferable
          (balKey "A" (rustToLowercase "DOGI"))
          ((tableGet transferWitState.transferable
              (balKey "A" (rustToLowercase "DOGI"))).getD 0 + 30),
        transfers := tableInsert transferWitState.transfers ⟨7, 0⟩
          ⟨rustToLowercase "DOGI", 30, "A"⟩ } :=
  ((drc20_transfer_create_correct transferWitState transferWitJson "A" ⟨7, 0⟩
        "DOGI" rfl).2 transferWitToken (by decide) (by decide) (.str "30") rfl
      30 (by decide)).2.2 (by decide) (by decide) (by decide)

/-- C3.  A mint inscription with a deployed tick and parsed amount amt is
rejected with no state change when the supply is fully minted, amt = 0 or
amt exceeds the mint limit (and an undeployed tick always changes nothing);
otherwise exactly min(amt, max_supply - minted) is credited to the
recipient's available balance, minted grows by the same quantity — staying
at most max_supply — and mint_count grows by one. -/
theorem drc20_mint_correct (st : Drc20State) (json : Drc20Json)
    (recipient : String) (t : String)
    (ht : json.tick = some t) :
    (tableGet st.tokens (rustToLowercase t) = none →
      drc20_mint st json recipient = st) ∧
    (∀ tok, tableGet st.tokens (rustToLowercase t) = some tok →
      (tok.max_supply ≤ tok.minted → drc20_mint st json recipient = st) ∧
      (utf8Len t = 4 →
        ∀ a, json.amt = some a →
        ∀ amt, parse_amount (json_to_amount_str a).data tok.decimals = some amt →
          (amt = 0 → drc20_mint st json recipient = st) ∧
          (tok.mint_limit < amt → drc20_mint st json recipient = st) ∧
          (tok.minted < tok.max_supply → amt ≠ 0 → amt ≤ tok.mint_limit →
            tok.max_supply < U128 →
            (tableGet st.balances (balKey recipient (rustToLowercase t))).getD 0 +
                min amt (tok.max_supply - tok.minted) < U128 →
            tok.mint_count + 1 < U64 →
            drc20_mint st json recipient =
              { st with
                balances := tableInsert st.balances
                  (balKey recipient (rustToLowercase t))
                  ((tableGet st.balances
                      (balKey recipient (rustToLowercase t))).getD 0 +
                    min amt (tok.max_supply - tok.minted)),
                tokens := tableInsert st.tokens (rustToLowercase t)
                  { tok with
                    minted := tok.minted + min amt (tok.max_supply - tok.minted),
                    mint_count := tok.mint_count + 1 } } ∧
              tok.minted + min amt (tok.max_supply - tok.minted) ≤
                tok.max_supply))) := by
  constructor
  · intro hnone
    simp only [drc20_mint, ht]
    by_cases h4 : utf8Len t = 4
    · simp [h4, hnone]
    · simp [h4]
  · intro tok htok
    constructor
    · intro hfull
      simp only [drc20_mint, ht]
      by_cases h4 : utf8Len t = 4
      · simp [h4, htok, Nat.not_lt.mpr hfull]
      · simp [h4]
    · intro h4 a ha amt hamt
      refine ⟨?_, ?_, ?_⟩
      · intro h0
        simp [drc20_mint, ht, h4, htok, ha, hamt, h0]
      · intro hlim
        simp [drc20_mint, ht, h4, htok, ha, hamt, hlim]
      · intro hopen h0 hlim hmax hbal hcount
        have hmin : (if tok.max_supply - tok.minted < amt then
            tok.max_supply - tok.minted else amt) =
            min amt (tok.max_supply - tok.minted) := by
          split <;> omega
        have hcap : tok.minted + min amt (tok.max_supply - tok.minted) ≤
            tok.max_supply := by omega
        refine ⟨?_, hcap⟩
        simp only [drc20_mint, ht]
        simp [h4, htok, Nat.not_le.mpr hopen, ha, hamt, h0,
          Nat.not_lt.mpr hlim, hmin, u128add, u64add,
          Nat.mod_eq_of_lt hbal, Nat.mod_eq_of_lt hcount,
          Nat.mod_eq_of_lt (show tok.minted +
            min amt (tok.max_supply - tok.minted) < U128 by omega)]

/-- Witness for C3: a mint of 50 against a remaining supply of 40 credits
exactly min 50 40 = 40 to B and brings minted to the cap. -/
theorem drc20_mint_correct_witness :
    (drc20_mint mintWitState mintWitJson "B" =
      { mintWitState with
        balances := tableInsert mintWitState.balances
          (balKey "B" (rustToLowercase "DOGI"))
          ((tableGet mintWitState.balances
              (balKey "B" (rustToLowercase "DOGI"))).getD 0 +
            min 50 (mintWitToken.max_supply - mintWitToken.minted)),
        tokens := tableInsert mintWitState.tokens (rustToLowercase "DOGI")
          { mintWitToken with
            minted := mintWitToken.minted +
              min 50 (mintWitToken.max_supply - mintWitToken.minted),
            mint_count := mintWitToken.mint_count + 1 } }) ∧
      mintWitToken.minted + min 50 (mintWitToken.max_supply - mintWitToken.minted) ≤
        mintWitToken.max_supply :=
  (((drc20_mint_correct mintWitState mintWitJson "B" "DOGI" rfl).2 mintWitToken
        (by decide)).2 (by decide) (.str "50") rfl 50 (by decide)).2.2
    (by decide) (by decide) (by decide) (by decide) (by decide) (by decide)

/-- Witness for C8: an input carrying (100, 200) feeding outputs of 30 and
70 yields output 0 holding (100, 130), output 1 holding (130, 200) and an
empty leftover, and the general theorem applies to that run. -/
theorem coin_range_assigner_fifo_witness :
    index_transaction_sats [30, 70] (concatInputRanges [[(100, 200)]]) =
        some ([[(100, 130)], [(130, 200)]], []) ∧
      (List.Forall₂ (fun v a => (tapeUnits a).length = v) [30, 70]
          [[(100, 130)], [(130, 200)]] ∧
        ([[(100, 130)], [(130, 200)]].map tapeUnits).flatten ++ tapeUnits [] =
          tapeUnits (concatInputRanges [[(100, 200)]])) :=
  ⟨by decide,
    coin_range_assigner_fifo [[(100, 200)]] [30, 70]
      [[(100, 130)], [(130, 200)]] [] (by decide)⟩

/-- Splitting at dots always yields at least one part. -/
theorem splitDot_ne_nil (l : List Char) : splitDot l ≠ [] := by
  cases l with
  | nil => simp [splitDot]
  | cons c rest =>
    simp only [splitDot]
    by_cases hc : c = '.'
    · simp [hc]
    · simp only [if_neg hc]
      cases h : splitDot rest <;> simp

/-- Splitting yields a single part exactly for dot-free strings. -/
theorem splitDot_single_iff (l : List Char) :
    ∀ a : List Char, splitDot l = [a] ↔ l = a ∧ '.' ∉ a := by
  induction l with
  | nil =>
    intro a
    simp only [splitDot, List.cons.injEq, and_true]
    constructor
    · rintro ⟨rfl, -⟩
      simp
    · rintro ⟨rfl, -⟩
      simp
  | cons c rest ih =>
    intro a
    simp only [splitDot]
    by_cases hc : c = '.'
    · subst hc
      rw [if_pos rfl]
      constructor
      · intro h
        simp only [List.cons.injEq] at h
        exact absurd h.2 (splitDot_ne_nil rest)
      · rintro ⟨rfl, hnot⟩
        simp at hnot
    · rw [if_neg hc]
      cases hsr : splitDot rest with
      | nil => exact absurd hsr (splitDot_ne_nil rest)
      | cons p ps =>
        constructor
        · intro h
          simp only [List.cons.injEq] at h
          obtain ⟨rfl, rfl⟩ := h
          obtain ⟨hrest, hnp⟩ := (ih p).mp hsr
          subst hrest
          refine ⟨rfl, ?_⟩
          simp only [List.mem_cons, not_or]
          exact ⟨fun h => hc h.symm, hnp⟩
        · rintro ⟨rfl, hnot⟩
          simp only [List.mem_cons, not_or] at hnot
          obtain ⟨hcd, hnp⟩ := hnot
          have h2 : splitDot rest = [rest] := (ih rest).mpr ⟨rfl, hnp⟩
          rw [hsr] at h2
          simp only [List.cons.injEq] at h2
          obtain ⟨rfl, rfl⟩ := h2
          rfl

/-- Splitting yields exactly two parts precisely for strings with exactly
one dot, and the parts are the dot-free pieces around it. -/
theorem splitDot_pair_iff (l : List Char) :
    ∀ a b : List Char,
      splitDot l = [a, b] ↔ l = a ++ '.' :: b ∧ '.' ∉ a ∧ '.' ∉ b := by
  induction l with
  | nil =>
    intro a b
    constructor
    · intro h
      simp [splitDot] at h
    · rintro ⟨h, -, -⟩
      exact absurd h (by simp)
  | cons c rest ih =>
    intro a b
    simp only [splitDot]
    by_cases hc : c = '.'
    · subst hc
      rw [if_pos rfl]
      constructor
      · intro h
        simp only [List.cons.injEq] at h
        obtain ⟨rfl, hb⟩ := h
        obtain ⟨hrb, hnb⟩ := (splitDot_single_iff rest b).mp hb
        subst hrb
        exact ⟨rfl, by simp, hnb⟩
      · rintro ⟨heq, hna, hnb⟩
        cases a with
        | nil =>
          simp only [List.nil_append, List.cons.injEq, true_and] at heq
          simp only [List.cons.injEq, true_and, heq]
          exact (splitDot_single_iff b b).mpr ⟨rfl, hnb⟩
        | cons x xs =>
          simp only [List.cons_append, List.cons.injEq] at heq
          simp only [List.mem_cons, not_or] at hna
          exact absurd heq.1 hna.1
    · rw [if_neg hc]
      cases hsr : splitDot rest with
      | nil => exact absurd hsr (splitDot_ne_nil rest)
      | cons p ps =>
        constructor
        · intro h
          simp only [List.cons.injEq] at h
          obtain ⟨rfl, rfl⟩ := h
          obtain ⟨hrest, hnp, hnb⟩ := (ih p b).mp hsr
          subst hrest
          refine ⟨rfl, ?_, hnb⟩
          simp only [List.mem_cons, not_or]
          exact ⟨fun h => hc h.symm, hnp⟩
        · rintro ⟨heq, hna, hnb⟩
          cases a with
          | nil =>
            simp only [List.nil_append, List.cons.injEq] at heq
            exact absurd heq.1 hc
          | cons x xs =>
            simp only [List.cons_append, List.cons.injEq] at heq
            obtain ⟨rfl, hrest⟩ := heq
            simp only [List.mem_cons, not_or] at hna
            obtain ⟨-, hnxs⟩ := hna
            have h2 : splitDot rest = [xs, b] := (ih xs b).mpr ⟨hrest, hnxs, hnb⟩
            rw [hsr] at h2
            simp only [List.cons.injEq] at h2
            obtain ⟨rfl, rfl⟩ := h2
            rfl

/-- Looking up a freshly inserted key returns the inserted value. -/
theorem tableGet_tableInsert_self {K V : Type} [DecidableEq K]
    (t : List (K × V)) (k : K) (v : V) :
    tableGet (tableInsert t k v) k = some v := by
  induction t with
  | nil => simp [tableInsert, tableGet]
  | cons p rest ih =>
    obtain ⟨k2, v2⟩ := p
    simp only [tableInsert]
    by_cases h : k2 = k
    · simp [h, tableGet]
    · simp [tableGet, h, ih]

/-- The registrar's split-based acceptance check agrees with the structural
registration condition. -/
theorem dnsAccepts_iff_wellFormed (n : List Char) :
    dnsAccepts n = true ↔ DnsNameWellFormed n := by
  unfold dnsAccepts
  cases h : splitDot n with
  | nil => exact absurd h (splitDot_ne_nil n)
  | cons p ps =>
    cases ps with
    | nil =>
      constructor
      · intro hh
        simp at hh
      · rintro ⟨label, ns, heq, hl, hn, hnl, hnn, hv⟩
        have h2 := (splitDot_pair_iff n label ns).mpr ⟨heq, hnl, hnn⟩
        rw [h] at h2
        simp at h2
    | cons q qs =>
      cases qs with
      | nil =>
        constructor
        · intro hh
          simp only [Bool.and_eq_true, Bool.not_eq_true'] at hh
          obtain ⟨⟨hp, hq⟩, hv⟩ := hh
          obtain ⟨heq, hnp, hnq⟩ := (splitDot_pair_iff n p q).mp h
          refine ⟨p, q, heq, ?_, ?_, hnp, hnq, hv⟩
          · intro hcon; subst hcon; simp at hp
          · intro hcon; subst hcon; simp at hq
        · rintro ⟨label, ns, heq, hl, hn, hnl, hnn, hv⟩
          have h2 := (splitDot_pair_iff n label ns).mpr ⟨heq, hnl, hnn⟩
          rw [h] at h2
          simp only [List.cons.injEq, and_true] at h2
          obtain ⟨rfl, rfl⟩ := h2
          simp only [Bool.and_eq_true, Bool.not_eq_true']
          refine ⟨⟨?_, ?_⟩, hv⟩
          · simpa [List.isEmpty_iff] using hl
          · simpa [List.isEmpty_iff] using hn
      | cons r rs =>
        constructor
        · intro hh
          simp at hh
        · rintro ⟨label, ns, heq, hl, hn, hnl, hnn, hv⟩
          have h2 := (splitDot_pair_iff n label ns).mpr ⟨heq, hnl, hnn⟩
          rw [h] at h2
          simp at h2

/-- C7.  A DNS name is registered exactly when the trimmed body has the
form label.namespace with exactly one dot, both parts non-empty and the
namespace in the fixed allow-list; a body failing the check registers
nothing, an envelope whose trimmed body names an already-registered name
leaves the whole state unchanged (first-seen wins), and a fresh valid name
is stored with the registering inscription's id, height and timestamp. -/
theorem dns_register_first_seen (st : DnsState)
    (txid env_idx height block_time : Nat) (inscNum : Nat → Nat → Int)
    (text : List Char) :
    (dnsAccepts (rustTrim text) = true ↔ DnsNameWellFormed (rustTrim text)) ∧
    (dnsAccepts (rustTrim text) = false →
      dns_process_envelope st txid env_idx height block_time inscNum
        (some text) = st) ∧
    (∀ e, tableGet st.names (rustTrim text) = some e →
      dns_process_envelope st txid env_idx height block_time inscNum
        (some text) = st) ∧
    (dnsAccepts (rustTrim text) = true →
      tableGet st.names (rustTrim text) = none →
      tableGet (dns_process_envelope st txid env_idx height block_time inscNum
          (some text)).names (rustTrim text) =
        some ⟨rustTrim text, txid, env_idx, inscNum txid env_idx, height,
          block_time, 0, none, none, none⟩) := by
  refine ⟨dnsAccepts_iff_wellFormed (rustTrim text), ?_, ?_, ?_⟩
  · intro hrej
    simp only [dns_process_envelope]
    cases h : splitDot (rustTrim text) with
    | nil => rfl
    | cons p ps =>
      cases ps with
      | nil => rfl
      | cons q qs =>
        cases qs with
        | cons r rs => rfl
        | nil =>
          simp only [dnsAccepts, h, Bool.and_eq_true, Bool.not_eq_true'] at hrej
          by_cases hp : p.isEmpty
          · simp [hp]
          · by_cases hq : q.isEmpty
            · simp [hp, hq]
            · by_cases hv : is_valid_dns_namespace (String.mk q) = true
              · exfalso
                have hp2 : p.isEmpty = false := Bool.eq_false_iff.mpr hp
                have hq2 : q.isEmpty = false := Bool.eq_false_iff.mpr hq
                simp [hp2, hq2, hv] at hrej
              · simp [hp, hq, hv]
  · intro e he
    simp only [dns_process_envelope]
    cases h : splitDot (rustTrim text) with
    | nil => rfl
    | cons p ps =>
      cases ps with
      | nil => rfl
      | cons q qs =>
        cases qs with
        | cons r rs => rfl
        | nil =>
          by_cases hp : p.isEmpty
          · simp [hp]
          · by_cases hq : q.isEmpty
            · simp [hp, hq]
            · by_cases hv : is_valid_dns_namespace (String.mk q) = true
              · simp [hp, hq, hv, he]
              · simp [hp, hq, hv]
  · intro hacc hfresh
    simp only [dns_process_envelope]
    cases h : splitDot (rustTrim text) with
    | nil =>
      rw [dnsAccepts, h] at hacc
      simp at hacc
    | cons p ps =>
      cases ps with
      | nil =>
        rw [dnsAccepts, h] at hacc
        simp at hacc
      | cons q qs =>
        cases qs with
        | cons r rs =>
          rw [dnsAccepts, h] at hacc
          simp at hacc
        | nil =>
          rw [dnsAccepts, h] at hacc
          simp only [Bool.and_eq_true, Bool.not_eq_true'] at hacc
          obtain ⟨⟨hp, hq⟩, hv⟩ := hacc
          simp only [hp, hq, hv, hfresh, Bool.false_eq_true, if_false,
            Bool.not_true, Option.isSome_none]
          simp [tableGet_tableInsert_self]

/-- Witness for C7: registering alice.doge in an empty state stores an entry
at the registration height, and a second inscription of the same name at a
later height leaves the state untouched. -/
theorem dns_register_first_seen_witness :
    tableGet (dns_process_envelope emptyDnsState 5 0 100 500 (fun _ _ => 0)
        (some "alice.doge".data)).names (rustTrim "alice.doge".data) =
      some ⟨rustTrim "alice.doge".data, 5, 0, 0, 100, 500, 0, none, none,
        none⟩ ∧
      dns_process_envelope dnsWitState 6 0 101 510 (fun _ _ => 0)
          (some "alice.doge".data) =
        dnsWitState :=
  ⟨(dns_register_first_seen emptyDnsState 5 0 100 500 (fun _ _ => 0)
        "alice.doge".data).2.2.2 (by decide) (by decide),
    (dns_register_first_seen dnsWitState 6 0 101 510 (fun _ _ => 0)
        "alice.doge".data).2.2.1 dnsWitEntry (by decide)⟩

theorem digitVal_le_nine (c : Char) (h : isRustDigit c = true) :
    digitVal c ≤ 9 := by
  simp only [isRustDigit, Bool.and_eq_true, decide_eq_true_eq] at h
  have h2 : c.toNat ≤ 57 := h.2
  simp only [digitVal]
  omega

theorem digits_foldl_acc (cs : List Char) :
    ∀ a : Nat, cs.foldl (fun a c => a * 10 + digitVal c) a =
      a * 10 ^ cs.length + digitsToNat cs := by
  induction cs with
  | nil => intro a; simp [digitsToNat]
  | cons c rest ih =>
    intro a
    simp only [List.foldl_cons, List.length_cons, digitsToNat] at ih ⊢
    rw [ih (a * 10 + digitVal c), ih (0 * 10 + digitVal c)]
    ring

theorem digitsToNat_cons (c : Char) (cs : List Char) :
    digitsToNat (c :: cs) = digitVal c * 10 ^ cs.length + digitsToNat cs := by
  simp only [digitsToNat, List.foldl_cons]
  simpa using digits_foldl_acc cs (digitVal c)

theorem digitsToNat_lt (cs : List Char)
    (h : ∀ c ∈ cs, isRustDigit c = true) :
    digitsToNat cs < 10 ^ cs.length := by
  induction cs with
  | nil => simp [digitsToNat]
  | cons c rest ih =>
    have hc := digitVal_le_nine c (h c (by simp))
    have hr := ih (fun x hx => h x (by simp [hx]))
    rw [digitsToNat_cons]
    simp only [List.length_cons, pow_succ]
    nlinarith

theorem isRustDigit_ne (c : Char) (h : isRustDigit c = true) :
    c ≠ '.' ∧ c ≠ ' ' ∧ c ≠ '+' ∧ c ≠ '-' := by
  refine ⟨?_, ?_, ?_, ?_⟩ <;>
    · intro hc
      subst hc
      simp [isRustDigit] at h

theorem parseU128_eq_some (cs : List Char) (v : Nat) :
    parseU128 cs = some v ↔
      stripPlus cs ≠ [] ∧ (∀ c ∈ stripPlus cs, isRustDigit c = true) ∧
        v = digitsToNat (stripPlus cs) ∧ v < U128 := by
  simp only [parseU128]
  by_cases h1 : stripPlus cs ≠ [] ∧ (stripPlus cs).all isRustDigit
  · rw [if_pos h1]
    by_cases h2 : digitsToNat (stripPlus cs) < U128
    · rw [if_pos h2]
      simp only [Option.some.injEq, List.all_eq_true] at h1 ⊢
      constructor
      · rintro rfl
        exact ⟨h1.1, h1.2, rfl, h2⟩
      · rintro ⟨-, -, rfl, -⟩
        rfl
    · rw [if_neg h2]
      simp only [List.all_eq_true] at h1
      constructor
      · intro h; cases h
      · rintro ⟨-, -, rfl, hv⟩
        exact absurd hv h2
  · rw [if_neg h1]
    simp only [List.all_eq_true, not_and] at h1
    constructor
    · intro h; cases h
    · rintro ⟨hne, hall, -, -⟩
      exact absurd (by simpa [List.all_eq_true] using hall) (h1 hne)

theorem pow128_eq (d : Nat) (hd : d ≤ 18) : pow128 d = 10 ^ d := by
  have : (10 : Nat) ^ d ≤ 10 ^ 18 := Nat.pow_le_pow_right (by norm_num) hd
  have h18 : (10 : Nat) ^ 18 < U128 := by unfold U128; norm_num
  exact Nat.mod_eq_of_lt (lt_of_le_of_lt this h18)

theorem takeWhile_dot_append (b : List Char) :
    ∀ a : List Char, '.' ∉ a →
      (a ++ '.' :: b).takeWhile (fun c => c ≠ '.') = a ∧
        (a ++ '.' :: b).dropWhile (fun c => c ≠ '.') = '.' :: b := by
  intro a
  induction a with
  | nil =>
    intro _
    constructor
    · simp [List.takeWhile_cons]
    · simp [List.dropWhile_cons]
  | cons x xs ih =>
    intro hna
    simp only [List.mem_cons, not_or] at hna
    obtain ⟨hx, hxs⟩ := hna
    have hx2 : x ≠ '.' := fun h => hx h.symm
    obtain ⟨h1, h2⟩ := ih hxs
    refine ⟨?_, ?_⟩
    · simpa [List.cons_append, List.takeWhile_cons, hx2] using h1
    · simpa [List.cons_append, List.dropWhile_cons, hx2] using h2

theorem mem_dot_decompose (t : List Char) (h : ('.' : Char) ∈ t) :
    t = t.takeWhile (fun c => c ≠ '.') ++
        '.' :: (t.dropWhile (fun c => c ≠ '.')).tail ∧
      ('.' : Char) ∉ t.takeWhile (fun c => c ≠ '.') := by
  have hnn : t.dropWhile (fun c => c ≠ '.') ≠ [] := by
    intro hnil
    rw [List.dropWhile_eq_nil_iff] at hnil
    have := hnil '.' h
    simp at this
  have hhead := List.head_dropWhile_not (fun c => c ≠ '.') t hnn
  have hd : (t.dropWhile (fun c => c ≠ '.')).head hnn = '.' := by
    simpa using hhead
  have hsplit := List.takeWhile_append_dropWhile (l := t) (p := fun c => c ≠ '.')
  have hcons : t.dropWhile (fun c => c ≠ '.') =
      '.' :: (t.dropWhile (fun c => c ≠ '.')).tail := by
    conv_lhs => rw [← List.head_cons_tail _ hnn]
    rw [hd]
  constructor
  · conv_lhs => rw [← hsplit, hcons]
  · intro hmem
    have := List.mem_takeWhile_imp hmem
    simp at this

theorem stripPlus_eq_self (t : List Char) (h : t.head? ≠ some '+') :
    stripPlus t = t := by
  cases t with
  | nil => rfl
  | cons c rest =>
    simp only [stripPlus]
    rw [if_neg]
    intro hc
    subst hc
    exact h rfl

theorem stripPlus_shape (t : List Char) :
    t = stripPlus t ∨ t = '+' :: stripPlus t := by
  cases t with
  | nil => exact Or.inl rfl
  | cons c rest =>
    by_cases hc : c = '+'
    · subst hc
      right
      simp [stripPlus]
    · left
      simp [stripPlus, hc]

theorem mem_stripPlus_or (t : List Char) (c : Char) (h : c ∈ t) :
    c = '+' ∨ c ∈ stripPlus t := by
  rcases stripPlus_shape t with hs | hs
  · right; rw [← hs]; exact h
  · rw [hs] at h
    simp only [List.mem_cons] at h
    rcases h with h | h
    · exact Or.inl h
    · exact Or.inr h

theorem amountSpecForm_not_rejected (t : List Char) (d v : Nat)
    (hf : AmountSpecForm t d v) :
    ¬(t = [] ∨ t.head? = some '+' ∨ t.head? = some '-' ∨ t.head? = some '.' ∨
      t.getLast? = some '.' ∨ ' ' ∈ t) := by
  rcases hf with ⟨hall, hne, -, -⟩ | ⟨ip, fp, rfl, hip, hipd, hfp, hfpd, -, -, -⟩
  · rintro (h | h | h | h | h | h)
    · exact hne h
    · have hm : '+' ∈ t := List.mem_of_mem_head? (by simp [h])
      have := hall _ hm
      simp [isRustDigit] at this
    · have hm : '-' ∈ t := List.mem_of_mem_head? (by simp [h])
      have := hall _ hm
      simp [isRustDigit] at this
    · have hm : '.' ∈ t := List.mem_of_mem_head? (by simp [h])
      have := hall _ hm
      simp [isRustDigit] at this
    · have hm : '.' ∈ t := List.mem_of_mem_getLast? h
      have := hall _ hm
      simp [isRustDigit] at this
    · have := hall _ h
      simp [isRustDigit] at this
  · have hfpne : fp ≠ [] := by
      intro hcon
      rw [hcon] at hfp
      simp [stripPlus] at hfp
    have hfpmem : ∀ c ∈ fp, c = '+' ∨ isRustDigit c = true := by
      intro c hc
      rcases mem_stripPlus_or fp c hc with h | h
      · exact Or.inl h
      · exact Or.inr (hfpd _ h)
    rintro (h | h | h | h | h | h)
    · exact absurd h (by simp)
    · obtain ⟨c, ip2, rfl⟩ := List.exists_cons_of_ne_nil hip
      simp only [List.cons_append, List.head?_cons, Option.some.injEq] at h
      have := hipd c (by simp)
      rw [h] at this
      simp [isRustDigit] at this
    · obtain ⟨c, ip2, rfl⟩ := List.exists_cons_of_ne_nil hip
      simp only [List.cons_append, List.head?_cons, Option.some.injEq] at h
      have := hipd c (by simp)
      rw [h] at this
      simp [isRustDigit] at this
    · obtain ⟨c, ip2, rfl⟩ := List.exists_cons_of_ne_nil hip
      simp only [List.cons_append, List.head?_cons, Option.some.injEq] at h
      have := hipd c (by simp)
      rw [h] at this
      simp [isRustDigit] at this
    · rw [List.getLast?_append_of_ne_nil _ (by simp)] at h
      rw [show ('.' :: fp) = ['.'] ++ fp by rfl,
        List.getLast?_append_of_ne_nil _ hfpne] at h
      have hm : '.' ∈ fp := List.mem_of_mem_getLast? h
      rcases hfpmem _ hm with hcon | hcon
      · simp at hcon
      · simp [isRustDigit] at hcon
    · rw [List.mem_append, List.mem_cons] at h
      rcases h with h | h | h
      · have := hipd _ h
        simp [isRustDigit] at this
      · simp at h
      · rcases hfpmem _ h with hcon | hcon
        · simp at hcon
        · simp [isRustDigit] at hcon

theorem parseU128_digits (ds : List Char) (hne : ds ≠ [])
    (hall : ∀ c ∈ ds, isRustDigit c = true) (hd : ds.head? ≠ some '+')
    (hlt : digitsToNat ds < U128) :
    parseU128 ds = some (digitsToNat ds) := by
  rw [parseU128_eq_some]
  rw [stripPlus_eq_self ds hd]
  exact ⟨hne, hall, rfl, hlt⟩

theorem stripPlus_length_le (t : List Char) :
    (stripPlus t).length ≤ t.length := by
  rcases stripPlus_shape t with hs | hs
  · rw [← hs]
  · conv_rhs => rw [hs]
    simp

theorem val_le_mul_pow (n d : Nat) : n ≤ n * 10 ^ d := by
  conv_lhs => rw [← Nat.mul_one n]
  exact Nat.mul_le_mul_left n (Nat.one_le_pow _ _ (by norm_num))

theorem frac_scaled_eq (fp : List Char) (d : Nat) (hd : d ≤ 18)
    (hlen : fp.length ≤ d)
    (hspd : ∀ c ∈ stripPlus fp, isRustDigit c = true) :
    digitsToNat (stripPlus fp) * pow128 (d - fp.length) % U128 =
      digitsToNat (stripPlus fp) * 10 ^ (d - fp.length) := by
  rw [pow128_eq _ (by omega)]
  apply Nat.mod_eq_of_lt
  have h1 : digitsToNat (stripPlus fp) < 10 ^ fp.length := by
    have ha : digitsToNat (stripPlus fp) < 10 ^ (stripPlus fp).length :=
      digitsToNat_lt _ hspd
    have hb : (10 : Nat) ^ (stripPlus fp).length ≤ 10 ^ fp.length :=
      Nat.pow_le_pow_right (by norm_num) (stripPlus_length_le fp)
    omega
  have h2 : digitsToNat (stripPlus fp) * 10 ^ (d - fp.length) <
      10 ^ fp.length * 10 ^ (d - fp.length) :=
    (Nat.mul_lt_mul_right (by positivity)).mpr h1
  have h3 : (10 : Nat) ^ fp.length * 10 ^ (d - fp.length) = 10 ^ d := by
    rw [← pow_add]
    congr 1
    omega
  have h4 : (10 : Nat) ^ d ≤ 10 ^ 18 := Nat.pow_le_pow_right (by norm_num) hd
  have h5 : (10 : Nat) ^ 18 < U128 := by unfold U128; norm_num
  omega

theorem parse_amount_core_characterization (t : List Char) (d : Nat)
    (hd : d ≤ 18) (v : Nat) :
    parse_amount_core t d = some v ↔ AmountSpecForm t d v := by
  by_cases hrej : t = [] ∨ t.head? = some '+' ∨ t.head? = some '-' ∨
      t.head? = some '.' ∨ t.getLast? = some '.' ∨ ' ' ∈ t
  · rw [parse_amount_core, if_pos hrej]
    constructor
    · intro h; cases h
    · intro hf
      exact absurd hrej (amountSpecForm_not_rejected t d v hf)
  · have hrej2 := hrej
    push_neg at hrej2
    obtain ⟨hne, hplus, hminus, hdothead, hdotlast, hspace⟩ := hrej2
    rw [parse_amount_core, if_neg hrej]
    simp only [pow128_eq d hd]
    by_cases hdot : ('.' : Char) ∈ t
    · rw [if_pos hdot]
      obtain ⟨hteq, hnotake⟩ := mem_dot_decompose t hdot
      have hfsne : (t.dropWhile fun c => c ≠ '.').tail ≠ [] := by
        intro hnil
        rw [hnil] at hteq
        rw [hteq, List.getLast?_append_of_ne_nil _ (by simp)] at hdotlast
        simp at hdotlast
      constructor
      · intro hsucc
        rcases hres : parseU128 (t.takeWhile fun c => c ≠ '.') with _ | ipv
        · rw [hres, Option.none_bind] at hsucc; cases hsucc
        rw [hres, Option.some_bind] at hsucc
        by_cases hlen : d < ((t.dropWhile fun c => c ≠ '.').tail).length
        · rw [if_pos hlen] at hsucc; cases hsucc
        rw [if_neg hlen, if_neg hfsne] at hsucc
        rcases hres2 : parseU128 ((t.dropWhile fun c => c ≠ '.').tail)
          with _ | fpv
        · rw [hres2, Option.none_bind] at hsucc; cases hsucc
        rw [hres2, Option.some_bind] at hsucc
        obtain ⟨hsp1, hsp2, hsp3, hsp4⟩ := (parseU128_eq_some _ _).mp hres
        obtain ⟨hfp1, hfp2, hfp3, hfp4⟩ := (parseU128_eq_some _ _).mp hres2
        have hipne : (t.takeWhile fun c => c ≠ '.') ≠ [] := by
          intro hnil
          rw [hnil] at hsp1
          simp [stripPlus] at hsp1
        have hiphead : (t.takeWhile fun c => c ≠ '.').head? ≠ some '+' := by
          obtain ⟨c, ip2, hc⟩ := List.exists_cons_of_ne_nil hipne
          rw [hc]
          rw [hc] at hteq
          rw [hteq] at hplus
          simpa using hplus
        rw [stripPlus_eq_self _ hiphead] at hsp1 hsp2 hsp3
        rw [hfp3, frac_scaled_eq _ d hd (by omega) hfp2] at hsucc
        simp only [checked_mul, checked_add] at hsucc
        by_cases hc1 : ipv * 10 ^ d < U128
        · rw [if_pos hc1, Option.some_bind] at hsucc
          by_cases hc2 : ipv * 10 ^ d + digitsToNat
              (stripPlus ((t.dropWhile fun c => c ≠ '.').tail)) *
              10 ^ (d - ((t.dropWhile fun c => c ≠ '.').tail).length) < U128
          · rw [if_pos hc2] at hsucc
            simp only [Option.some.injEq] at hsucc
            refine Or.inr ⟨t.takeWhile fun c => c ≠ '.',
              (t.dropWhile fun c => c ≠ '.').tail, hteq, hipne, hsp2, hfp1,
              hfp2, by omega, ?_, ?_⟩
            · rw [← hsucc, hsp3]
            · omega
          · rw [if_neg hc2] at hsucc; cases hsucc
        · rw [if_neg hc1, Option.none_bind] at hsucc
          cases hsucc
      · intro hf
        rcases hf with ⟨hall, -, -, -⟩ |
          ⟨ip, fp, hteq2, hipne, hipd, hspne, hspd, hlen, hveq, hvlt⟩
        · refine absurd hdot fun hm => ?_
          have := hall _ hm
          simp [isRustDigit] at this
        have hipdot : ('.' : Char) ∉ ip := by
          intro hm
          have := hipd _ hm
          simp [isRustDigit] at this
        obtain ⟨htake, hdrop⟩ := takeWhile_dot_append fp ip hipdot
        rw [← hteq2] at htake hdrop
        rw [htake, hdrop]
        simp only [List.tail_cons]
        have hfpne : fp ≠ [] := by
          intro hcon
          rw [hcon] at hspne
          simp [stripPlus] at hspne
        have hiphead : ip.head? ≠ some '+' := by
          obtain ⟨c, ip2, rfl⟩ := List.exists_cons_of_ne_nil hipne
          have := hipd c (by simp)
          simp only [List.head?_cons, ne_eq, Option.some.injEq]
          intro hc
          rw [hc] at this
          simp [isRustDigit] at this
        have hipv : digitsToNat ip < U128 := by
          have h0 := val_le_mul_pow (digitsToNat ip) d
          omega
        rw [parseU128_digits ip hipne hipd hiphead hipv, Option.some_bind]
        rw [if_neg (show ¬d < fp.length by omega), if_neg hfpne]
        have hspval : digitsToNat (stripPlus fp) < U128 := by
          have h1 : digitsToNat (stripPlus fp) < 10 ^ (stripPlus fp).length :=
            digitsToNat_lt _ hspd
          have h2 : (10 : Nat) ^ (stripPlus fp).length ≤ 10 ^ 18 := by
            apply Nat.pow_le_pow_right (by norm_num)
            have h4 := stripPlus_length_le fp
            omega
          have h3 : (10 : Nat) ^ 18 < U128 := by unfold U128; norm_num
          omega
        have hfpparse : parseU128 fp = some (digitsToNat (stripPlus fp)) := by
          rw [parseU128_eq_some]
          exact ⟨hspne, hspd, rfl, hspval⟩
        rw [hfpparse, Option.some_bind]
        rw [frac_scaled_eq fp d hd hlen hspd]
        simp only [checked_mul, checked_add]
        rw [if_pos (show digitsToNat ip * 10 ^ d < U128 by
          have h0 := val_le_mul_pow (digitsToNat ip) d
          omega), Option.some_bind]
        rw [if_pos (show digitsToNat ip * 10 ^ d +
            digitsToNat (stripPlus fp) * 10 ^ (d - fp.length) < U128 by omega)]
        rw [hveq]
    · rw [if_neg hdot]
      constructor
      · intro hsucc
        rcases hres : parseU128 t with _ | n
        · rw [hres, Option.none_bind] at hsucc; cases hsucc
        rw [hres, Option.some_bind] at hsucc
        simp only [checked_mul] at hsucc
        by_cases hc1 : n * 10 ^ d < U128
        · rw [if_pos hc1] at hsucc
          simp only [Option.some.injEq] at hsucc
          obtain ⟨hsp1, hsp2, hsp3, hsp4⟩ := (parseU128_eq_some _ _).mp hres
          rw [stripPlus_eq_self t hplus] at hsp1 hsp2 hsp3
          exact Or.inl ⟨hsp2, hne, by rw [← hsucc, hsp3], by omega⟩
        · rw [if_neg hc1] at hsucc; cases hsucc
      · intro hf
        rcases hf with ⟨hall, -, hveq, hvlt⟩ |
          ⟨ip, fp, hteq2, -, -, -, -, -, -, -⟩
        · have hnv : digitsToNat t < U128 := by
            have h0 := val_le_mul_pow (digitsToNat t) d
            omega
          rw [parseU128_digits t hne hall hplus hnv, Option.some_bind]
          simp only [checked_mul]
          rw [if_pos (show digitsToNat t * 10 ^ d < U128 by omega)]
          rw [hveq]
        · exact absurd (hteq2 ▸ (by simp : ('.' : Char) ∈ ip ++ '.' :: fp)) hdot

/-- Counterexample to C6: " 5" contains a space yet parses (trim comes
first), "1.+5" is not a plain fixed-decimal numeral — its fractional part
carries a plus sign — yet parses to 105, and the 39-digit numeral 2^128,
a well-formed unsigned integer, fails to parse because its value overflows
a u128. -/
theorem parse_amount_claim_counterexample :
    parse_amount " 5".data 0 = some 5 ∧
      parse_amount "1.+5".data 2 = some 105 ∧
      parse_amount "340282366920938463463374607431768211456".data 0 = none := by
  refine ⟨by decide, by decide, by decide⟩

/-- C6 (amended).  The DRC-20 amount parser first trims Unicode whitespace
from both ends; it succeeds exactly when the trimmed string is an unsigned
integer or fixed-decimal numeral with no leading sign, no leading or
trailing dot and no space, whose fractional part (which may carry one
leading plus sign, counted against the length budget) has length at most d,
and whose value scaled by 10^d fits in a u128; it then returns the numeric
value scaled by 10^d. -/
theorem parse_amount_characterization (s : List Char) (d : Nat) (hd : d ≤ 18)
    (v : Nat) :
    parse_amount s d = some v ↔ AmountSpecForm (rustTrim s) d v :=
  parse_amount_core_characterization (rustTrim s) d hd v

/-- Witness for C6: "1.5" with one decimal parses to 15. -/
theorem parse_amount_characterization_witness :
    (1 : Nat) ≤ 18 ∧ parse_amount "1.5".data 1 = some 15 :=
  ⟨by norm_num,
    (parse_amount_characterization "1.5".data 1 (by norm_num) 15).mpr
      (Or.inr ⟨['1'], ['5'], by decide, by decide, by decide, by decide,
        by decide, by decide, by decide, by decide⟩)⟩

end Dog
